import Mathlib

/-!
# Verification of the version-constraint negotiation engine

A shallow embedding, in Lean 4, of `ci_cd/utils/versions.py`: the
`SemanticVersion` value type and its rich comparisons, the
constraint-set updater `update_specifier_set`, the ignore evaluator
`ignore_version` (with `_ignore_semver_rules` and
`_ignore_version_rules_specifier_set`), and the minimum-Python-version
search `find_minimum_py_version`.

Modelling conventions:

* Python `int` version segments become `Nat` (they are produced by
  `int(...)` on regex groups that only match non-negative numerals);
  where the source renders a possibly negative decrement
  (`previous_version`) we use `Int` for the rendered segment.
* The `packaging` library's `SpecifierSet` is external to the
  repository; its membership test is modelled from the spec ("standard
  range semantics, `~=` expanded to its half-open range"), restricted to
  the plain dotted-numeric versions the engine feeds it.  A specifier
  set is modelled as a list of `(operator, version-segments)` pairs; the
  arbitrary iteration order of a Python (frozen)set is modelled as the
  list order, and specifiers added by the updater are appended at the
  end.
* Version strings that the source manipulates via `str.split(".")` are
  modelled directly as their segment lists.
* The externally evaluated environment marker (`packaging.markers`) is
  modelled from the spec as an opaque boolean predicate on versions.
-/

namespace Versions

/-- The parsed fields of `SemanticVersion` (`versions.py`, class
`SemanticVersion`): `<major>.<minor>.<patch>-<pre_release>+<build>`,
where a missing minor/patch parses to `0` and missing pre-release/build
to `None`. -/
structure SemVer where
  major : Nat
  minor : Nat
  patch : Nat
  pre_release : Option String
  build : Option String
deriving DecidableEq, Repr

/-- Lexicographic comparison of character lists by code point: Python's
`str` comparison (`"a" < "ab"`, and characters compare by code
point). -/
def charListLt : List Char → List Char → Bool
  | _, [] => false
  | [], _ :: _ => true
  | a :: as, b :: bs =>
      decide (a.toNat < b.toNat) || (decide (a.toNat = b.toNat) && charListLt as bs)

/-- Python string comparison `a < b`. -/
def pyStrLt (a b : String) : Bool :=
  charListLt a.data b.data

/-- The pre-release block of `SemanticVersion.__lt__` (`versions.py`
lines 228-233), reached at an equal `(major, minor, patch)` triple: no
own pre-release is never less; a pre-release is less than no
pre-release; two pre-releases compare as plain strings. -/
def preLt (a b : Option String) : Bool :=
  match a, b with
  | none, _ => false
  | some _, none => true
  | some p, some q => pyStrLt p q

/-- `SemanticVersion.__lt__` (`versions.py` lines 216-234): lexicographic
on `(major, minor, patch)`, then the pre-release precedence rule. -/
def svLT (a b : SemVer) : Bool :=
  if a.major < b.major then true
  else if a.major = b.major then
    if a.minor < b.minor then true
    else if a.minor = b.minor then
      if a.patch < b.patch then true
      else if a.patch = b.patch then
        preLt a.pre_release b.pre_release
      else false
    else false
  else false

/-- `SemanticVersion.__eq__` (`versions.py` lines 240-249): equality of
major, minor, patch and pre-release; the build component is ignored. -/
def svEq (a b : SemVer) : Bool :=
  decide (a.major = b.major) && decide (a.minor = b.minor)
    && decide (a.patch = b.patch) && decide (a.pre_release = b.pre_release)

/-- `SemanticVersion.__le__`: `self < other or self == other`. -/
def svLE (a b : SemVer) : Bool :=
  svLT a b || svEq a b

/-- `SemanticVersion.__gt__`: `not self <= other`. -/
def svGT (a b : SemVer) : Bool :=
  !(svLE a b)

/-- The three version parts accepted by `next_version` and
`previous_version`. -/
inductive Part where
  | major | minor | patch
deriving DecidableEq, Repr

/-- `SemanticVersion.next_version` (`versions.py` lines 263-289):
increment the named part, zero everything to its right; the result is
reparsed from a plain `x.y.z` string, so pre-release and build are
cleared. -/
def next_version (v : SemVer) (part : Part) : SemVer :=
  match part with
  | .major => ⟨v.major + 1, 0, 0, none, none⟩
  | .minor => ⟨v.major, v.minor + 1, 0, none, none⟩
  | .patch => ⟨v.major, v.minor, v.patch + 1, none, none⟩

/-- `SemanticVersion.shortened` (`versions.py` lines 343-357): drop a
zero patch, then a zero minor, and drop pre-release/build. -/
def shortened (v : SemVer) : String :=
  if v.patch = 0 then
    if v.minor = 0 then toString v.major
    else toString v.major ++ "." ++ toString v.minor
  else toString v.major ++ "." ++ toString v.minor ++ "." ++ toString v.patch

/-- One rendered decimal segment, as Python's f-string renders an `int`
(negative values render with a leading minus sign). -/
def intSeg (i : Int) : String := toString i

/-- The three segments of the string rendered by
`SemanticVersion.previous_version` (`versions.py` lines 291-341):
decrement the named part; on borrow (the part is already `0`) decrement
the next-higher part and fill the borrowed part(s) with `max_filler`.
The source renders them joined with dots; since a rendered integer never
contains a dot, the segment list determines the string. -/
def previous_version_segments (v : SemVer) (part : Part) (max_filler : Nat) :
    List String :=
  match part with
  | .major =>
      [intSeg ((v.major : Int) - 1), intSeg max_filler, intSeg max_filler]
  | .minor =>
      if v.minor = 0 then
        [intSeg ((v.major : Int) - 1), intSeg max_filler, intSeg max_filler]
      else
        [intSeg v.major, intSeg ((v.minor : Int) - 1), intSeg max_filler]
  | .patch =>
      if v.patch = 0 then
        if v.minor = 0 then
          [intSeg ((v.major : Int) - 1), intSeg max_filler, intSeg max_filler]
        else
          [intSeg v.major, intSeg ((v.minor : Int) - 1), intSeg max_filler]
      else
        [intSeg v.major, intSeg v.minor, intSeg ((v.patch : Int) - 1)]

/-- The numeric-segment group of `SemanticVersion._REGEX`
(`versions.py` lines 73-78): `0|[1-9]\d*` — a non-empty digit string
with no leading zero (except the literal `0`). -/
def isNumeral (s : String) : Bool :=
  match s.data with
  | [] => false
  | c :: cs => (c :: cs).all Char.isDigit && (c :: cs == ['0'] || c != '0')

/-- Numeric value of a digit string. -/
def digitsToNat (s : String) : Nat :=
  s.data.foldl (fun n c => n * 10 + (c.toNat - '0'.toNat)) 0

/-- The grammar check the `SemanticVersion` constructor (`versions.py`
lines 104-116) performs on the strings `previous_version` renders: such
a string is three dot-joined rendered integers (never a pre-release or
build part), and `SemanticVersion._REGEX` accepts it exactly when each
segment is a `0|[1-9]\d*` numeral — in particular a negative rendering
such as `-1` is rejected and the constructor raises `ValueError`. -/
def parsePlainSegments (segs : List String) : Option SemVer :=
  match segs with
  | [a, b, c] =>
      if isNumeral a && isNumeral b && isNumeral c then
        some ⟨digitsToNat a, digitsToNat b, digitsToNat c, none, none⟩
      else none
  | _ => none

/-- `SemanticVersion.previous_version` (`versions.py` lines 291-341):
render the decremented version and reparse it through the constructor's
grammar check; `none` models the constructor's `ValueError`. -/
def previous_version (v : SemVer) (part : Part) (max_filler : Nat := 99) :
    Option SemVer :=
  parsePlainSegments (previous_version_segments v part max_filler)

/-! ## Constraints and constraint sets

A `packaging.Specifier` is a pair of an operator and a version string;
the engine only ever feeds it plain dotted-numeric versions, which we
model as their list of numeric segments (`str.split(".")` with each
segment read as a number; version numerals carry no leading zeros, so
the segment strings and the numbers determine each other). -/

/-- The seven constraint operators. -/
inductive Op where
  | eq | ne | lt | le | gt | ge | compat
deriving DecidableEq, Repr

/-- A single constraint: `{operator, version}`, the version kept as its
dotted segments. -/
structure Spec where
  op : Op
  version : List Nat
deriving DecidableEq, Repr

/-- Zero-pad a segment list to a `(major, minor, patch)` triple — the
value the `SemanticVersion` constructor assigns to a plain numeric
version string (missing minor/patch default to `0`). -/
def padTriple (v : List Nat) : Nat × Nat × Nat :=
  (v.getD 0 0, v.getD 1 0, v.getD 2 0)

/-- Strict lexicographic order on padded triples: the restriction of
`SemanticVersion.__lt__` (and of PEP 440 ordering) to plain numeric
versions. -/
def tripleLtB (a b : Nat × Nat × Nat) : Bool :=
  a.1 < b.1 || (a.1 == b.1 &&
    (a.2.1 < b.2.1 || (a.2.1 == b.2.1 && a.2.2 < b.2.2)))

/-- The exclusive upper bound of the half-open range denoted by a `~=`
specifier: the last *specified* segment is dropped and the one before it
is incremented (`~=a.b` ↦ `a+1`, `~=a.b.c` ↦ `a.b+1`).  `packaging`
rejects a single-segment `~=`, so the one-segment case is unreachable
for well-formed specifiers. -/
def compatUpper : List Nat → Nat × Nat × Nat
  | [a, _] => (a + 1, 0, 0)
  | [a, b, _] => (a, b + 1, 0)
  | v => (v.getD 0 0 + 1, 0, 0)

/-- Modelled from the spec: membership of a version in one constraint
(`packaging`'s `Specifier.__contains__`, external to the repository),
"standard range semantics, `~=` expanded to its half-open range"
(spec §4.2 step 1, ordering per §4.1), restricted to plain numeric
versions.  The model reproduces the repository's own
`test_ignore_version` expectations for all seven operators. -/
def specContains (s : Spec) (latest : List Nat) : Bool :=
  let lv := padTriple latest
  let sv := padTriple s.version
  match s.op with
  | .eq => lv == sv
  | .ne => lv != sv
  | .lt => tripleLtB lv sv
  | .le => tripleLtB lv sv || lv == sv
  | .gt => tripleLtB sv lv
  | .ge => tripleLtB sv lv || lv == sv
  | .compat => (tripleLtB sv lv || lv == sv) && tripleLtB lv (compatUpper s.version)

/-- Modelled from the spec: membership of a version in a whole
specifier set (`SpecifierSet.__contains__`): every constraint must
hold. -/
def setContains (cur : List Spec) (latest : List Nat) : Bool :=
  cur.all (fun s => specContains s latest)

/-- `".".join(split_latest_version[: len(split_specifier_version)])`
(`versions.py` lines 738-741 and elsewhere): truncate the latest
version to the segment count of a specifier's version. -/
def truncTo (latest : List Nat) (v : List Nat) : List Nat :=
  latest.take v.length

/-- Whether an operator triggers the re-pin branch:
`specifier.operator in ["~=", "=="]` (`versions.py` line 737). -/
def isPin (s : Spec) : Bool :=
  s.op = Op.compat || s.op = Op.eq

/-- Whether an operator triggers the bounding-rewrite branch: the
`<=`, `<` and `~=` checks of `versions.py` lines 756, 765 and 790. -/
def isBounding (s : Spec) : Bool :=
  s.op = Op.le || s.op = Op.lt || s.op = Op.compat

/-- The re-pin scan of `update_specifier_set` (`versions.py` lines
736-744): find the first specifier using `~=` or `==`, remove it and add
the same operator re-pinned to the latest version truncated to the
original specifier's segment count.  The Python set has no positions;
removal plus addition is modelled as appending the new specifier after
the remaining ones.  `none` models the loop finding no such specifier
(the `for`/`else` at line 745). -/
def pinRepinFirst (latest : List Nat) : List Spec → Option (List Spec)
  | [] => none
  | s :: rest =>
      if isPin s then
        some (rest ++ [⟨s.op, truncTo latest s.version⟩])
      else
        (pinRepinFirst latest rest).map (fun r => s :: r)

/-- The specifiers replacing one bounding specifier in the not-contained
branch of `update_specifier_set` (`versions.py` lines 753-816), given
the latest version's segments:

* `<=` — the bound becomes the latest version truncated to the bound's
  segment count;
* `<` — the bound becomes the next version strictly above latest at the
  bound's segment granularity; any other segment count raises
  `UnableToResolve` (lines 780-784);
* `~=` — if latest's major exceeds the pinned major, expand into
  `>=` the fully padded pinned version and `<` the next major above
  latest; otherwise re-pin `~=` to the truncated latest.

The final catch-all is never reached: the caller only applies this to a
bounding specifier. -/
def boundingReplacement (latest : List Nat) (s : Spec) :
    Except String (List Spec) :=
  let lv := padTriple latest
  match s.op with
  | .le => .ok [⟨.le, truncTo latest s.version⟩]
  | .lt =>
      match s.version.length with
      | 1 => .ok [⟨.lt, [lv.1 + 1]⟩]
      | 2 => .ok [⟨.lt, [lv.1, lv.2.1 + 1]⟩]
      | 3 => .ok [⟨.lt, [lv.1, lv.2.1, lv.2.2 + 1]⟩]
      | _ => .error "Invalid/unable to handle number of version parts"
  | .compat =>
      let cv := padTriple s.version
      if cv.1 < lv.1 then
        .ok [⟨.ge, [cv.1, cv.2.1, cv.2.2]⟩, ⟨.lt, [lv.1 + 1]⟩]
      else
        .ok [⟨.compat, truncTo latest s.version⟩]
  | _ => .error "not a bounding operator"

/-- The bounding scan of `update_specifier_set` (`versions.py` lines
753-816): walk the specifier set in iteration order, and at the first
specifier whose operator is `<=`, `<` or `~=` (each specifier is tested
against the three operators in that order), remove it and add its
replacement; if the walk finds none, raise `UnableToResolve`
(lines 825-828). -/
def updateBounding (latest : List Nat) : List Spec → Except String (List Spec)
  | [] => .error "Cannot resolve how to update specifier set to include latest version."
  | s :: rest =>
      if isBounding s then
        (boundingReplacement latest s).map (fun ns => rest ++ ns)
      else
        (updateBounding latest rest).map (fun r => s :: r)

/-- `update_specifier_set` (`versions.py` lines 723-830): if the latest
version already satisfies the set, re-pin the first `~=`/`==` specifier
(or return the set unchanged when there is none); otherwise rewrite the
first bounding specifier, failing with `UnableToResolve` when no
specifier uses `<=`, `<` or `~=`. -/
def update_specifier_set (latest : List Nat) (cur : List Spec) :
    Except String (List Spec) :=
  if setContains cur latest then
    match pinRepinFirst latest cur with
    | some r => .ok r
    | none => .ok cur
  else
    updateBounding latest cur

/-- Whether the updater failed (`UnableToResolve`). -/
def isError (e : Except String (List Spec)) : Bool :=
  match e with
  | .error _ => true
  | .ok _ => false

/-! ## Ignore evaluator

`ignore_version` receives the current and latest versions as lists of
segment *strings* (`version.split(".")`), a list of version-filter
constraints, and the parsed `update-types` rules.  The semver-delta
rules compare the segment strings with Python string comparison, which
we model with Lean's `String` order (both compare code points
lexicographically). -/

/-- A parsed `update-types` value (`version-update:semver-<part>`). -/
inductive UpdateType where
  | major | minor | patch
deriving DecidableEq, Repr

/-- `_ignore_semver_rules` (`versions.py` lines 585-622): an
`if`/`elif` chain over the filter set.  When `major` is present, the
answer is solely whether the major segment strings differ; only
otherwise is `minor` consulted (equal majors and a strictly greater
minor segment string, both versions having at least two segments), and
only otherwise `patch`.  Segment comparisons are Python string
comparisons on the split segments. -/
def ignore_semver_rules (current latest : List String)
    (rules : List UpdateType) : Bool :=
  if rules.contains .major then
    latest.getD 0 "" != current.getD 0 ""
  else if rules.contains .minor then
    2 ≤ latest.length && 2 ≤ current.length
      && pyStrLt (current.getD 1 "") (latest.getD 1 "")
      && latest.getD 0 "" == current.getD 0 ""
  else if rules.contains .patch then
    3 ≤ latest.length && 3 ≤ current.length
      && pyStrLt (current.getD 2 "") (latest.getD 2 "")
      && latest.getD 0 "" == current.getD 0 ""
      && latest.getD 1 "" == current.getD 1 ""
  else
    false

/-- Numeric segments of a dotted version given as segment strings (the
`versions` ignore-rule grammar and the latest-version strings only ever
carry plain numerals). -/
def segsToNat (l : List String) : List Nat :=
  l.map digitsToNat

/-- `_ignore_version_rules_specifier_set` (`versions.py` lines
566-582): an empty rule list never matches; otherwise the rules form
one conjunctive specifier set and the latest version is tested for
membership. -/
def ignore_version_rules_specifier_set (latest : List String)
    (version_rules : List Spec) : Bool :=
  if version_rules.isEmpty then false
  else setContains version_rules (segsToNat latest)

/-- `ignore_version` (`versions.py` lines 625-662): with both rule
collections empty the package is ignored outright; otherwise ignore
when the version filters match, or else when the `update-types` rules
match.  `none` models an ignore-rules dictionary without a
`"version-update"` key. -/
def ignore_version (current latest : List String)
    (version_rules : List Spec) (semver_rules : Option (List UpdateType)) :
    Bool :=
  if version_rules.isEmpty && semver_rules.isNone then
    true
  else if ignore_version_rules_specifier_set latest version_rules then
    true
  else
    match semver_rules with
    | some rules => ignore_semver_rules current latest rules
    | none => false

/-! ## Minimum-version solver

`find_minimum_py_version` walks versions upward from the project's
Python version until the (externally evaluated) marker predicate holds
on a semi-valid Python version.  The source's `while` loop has no
iteration ceiling; the embedding makes the partial search total with an
explicit fuel argument: `none` means the loop has not terminated within
`fuel` iterations. -/

/-- `_semi_valid_python_version` (`versions.py` lines 926-944): major in
`1..3`, minor in `0..12`, patch in `0..18`. -/
def semi_valid_python_version (v : SemVer) : Bool :=
  1 ≤ v.major && v.major ≤ 3 && v.minor ≤ 12 && v.patch ≤ 18

/-- `find_minimum_py_version` (`versions.py` lines 915-959).  The
marker is modelled from the spec as an opaque boolean predicate on the
candidate version (the environment-marker evaluator is an external
collaborator, §6); `granularity` is the segment count of the project's
Python version, which `_next_version` uses to pick the increment step.
`fuel` bounds the otherwise unbounded loop. -/
def find_minimum_py_version (marker : SemVer → Bool) (granularity : Part)
    (fuel : Nat) (start : SemVer) : Option String :=
  match fuel with
  | 0 => none
  | fuel + 1 =>
      if semi_valid_python_version start && marker start then
        some (shortened start)
      else
        find_minimum_py_version marker granularity fuel
          (next_version start granularity)

end Versions


namespace Versions

/-! ## Order properties of the version comparison -/

theorem char_toNat_inj {a b : Char} (h : a.toNat = b.toNat) : a = b :=
  Char.eq_of_val_eq (UInt32.ext h)

theorem charListLt_irrefl (l : List Char) : charListLt l l = false := by
  induction l with
  | nil => rfl
  | cons a as ih => simp [charListLt, ih]

theorem charListLt_trans {as bs cs : List Char} (h1 : charListLt as bs = true)
    (h2 : charListLt bs cs = true) : charListLt as cs = true := by
  induction as generalizing bs cs with
  | nil =>
      cases bs with
      | nil => exact h2
      | cons b bs =>
          cases cs with
          | nil => simp [charListLt] at h2
          | cons c cs => rfl
  | cons a as ih =>
      cases bs with
      | nil => simp [charListLt] at h1
      | cons b bs =>
          cases cs with
          | nil => simp [charListLt] at h2
          | cons c cs =>
              simp only [charListLt, Bool.or_eq_true, Bool.and_eq_true,
                decide_eq_true_eq] at h1 h2 ⊢
              rcases h1 with h1 | ⟨h1e, h1r⟩
              · rcases h2 with h2 | ⟨h2e, h2r⟩
                · exact Or.inl (Nat.lt_trans h1 h2)
                · exact Or.inl (h2e ▸ h1)
              · rcases h2 with h2 | ⟨h2e, h2r⟩
                · exact Or.inl (h1e ▸ h2)
                · exact Or.inr ⟨h1e.trans h2e, ih h1r h2r⟩

theorem charListLt_connex {as bs : List Char} (h1 : charListLt as bs = false)
    (h2 : charListLt bs as = false) : as = bs := by
  induction as generalizing bs with
  | nil =>
      cases bs with
      | nil => rfl
      | cons b bs => simp [charListLt] at h1
  | cons a as ih =>
      cases bs with
      | nil => simp [charListLt] at h2
      | cons b bs =>
          simp only [charListLt, Bool.or_eq_false_iff, Bool.and_eq_false_iff,
            decide_eq_false_iff_not, Nat.not_lt] at h1 h2
          obtain ⟨hab, h1r⟩ := h1
          obtain ⟨hba, h2r⟩ := h2
          have he : a.toNat = b.toNat := Nat.le_antisymm hba hab
          have hc : a = b := char_toNat_inj he
          rcases h1r with h1r | h1r
          · exact absurd he h1r
          · rcases h2r with h2r | h2r
            · exact absurd he.symm h2r
            · exact hc ▸ congrArg (List.cons a) (ih h1r h2r)

theorem charListLt_asymm {as bs : List Char} (h : charListLt as bs = true) :
    charListLt bs as = false := by
  cases hb : charListLt bs as with
  | false => rfl
  | true =>
      have := charListLt_trans h hb
      rw [charListLt_irrefl] at this
      exact absurd this (by simp)

theorem pyStrLt_irrefl (s : String) : pyStrLt s s = false :=
  charListLt_irrefl s.data

theorem pyStrLt_trans {a b c : String} (h1 : pyStrLt a b = true)
    (h2 : pyStrLt b c = true) : pyStrLt a c = true :=
  charListLt_trans h1 h2

theorem pyStrLt_connex {a b : String} (h1 : pyStrLt a b = false)
    (h2 : pyStrLt b a = false) : a = b := by
  obtain ⟨as⟩ := a
  obtain ⟨bs⟩ := b
  exact congrArg String.mk (charListLt_connex h1 h2)

theorem preLt_irrefl (x : Option String) : preLt x x = false := by
  cases x with
  | none => rfl
  | some p => exact pyStrLt_irrefl p

theorem preLt_trans {x y z : Option String} (h1 : preLt x y = true)
    (h2 : preLt y z = true) : preLt x z = true := by
  cases x with
  | none => simp [preLt] at h1
  | some p =>
      cases y with
      | none => simp [preLt] at h2
      | some q =>
          cases z with
          | none => rfl
          | some r => exact pyStrLt_trans h1 h2

theorem preLt_connex {x y : Option String} (h1 : preLt x y = false)
    (h2 : preLt y x = false) : x = y := by
  cases x with
  | none =>
      cases y with
      | none => rfl
      | some q => simp [preLt] at h2
  | some p =>
      cases y with
      | none => simp [preLt] at h1
      | some q => exact congrArg some (pyStrLt_connex h1 h2)

theorem svLT_iff (a b : SemVer) : svLT a b = true ↔
    a.major < b.major ∨ (a.major = b.major ∧
      (a.minor < b.minor ∨ (a.minor = b.minor ∧
        (a.patch < b.patch ∨ (a.patch = b.patch ∧
          preLt a.pre_release b.pre_release = true))))) := by
  unfold svLT
  split_ifs with h1 h2 h3 h4 h5 h6 <;> simp_all

theorem svEq_iff (a b : SemVer) : svEq a b = true ↔
    a.major = b.major ∧ a.minor = b.minor ∧ a.patch = b.patch ∧
      a.pre_release = b.pre_release := by
  simp [svEq, and_assoc]

theorem preLt_asymm {x y : Option String} (h : preLt x y = true) :
    preLt y x = false := by
  cases hb : preLt y x with
  | false => rfl
  | true =>
      have := preLt_trans h hb
      rw [preLt_irrefl] at this
      exact this.symm

theorem svLT_asymm {a b : SemVer} (h : svLT a b = true) : svLT b a = false := by
  rw [svLT_iff] at h
  cases hb : svLT b a with
  | false => rfl
  | true =>
      rw [svLT_iff] at hb
      exfalso
      rcases h with h | ⟨e1, h⟩
      · rcases hb with hb | ⟨f1, hb⟩ <;> omega
      · rcases hb with hb | ⟨f1, hb⟩
        · omega
        · rcases h with h | ⟨e2, h⟩
          · rcases hb with hb | ⟨f2, hb⟩ <;> omega
          · rcases hb with hb | ⟨f2, hb⟩
            · omega
            · rcases h with h | ⟨e3, h⟩
              · rcases hb with hb | ⟨f3, hb⟩ <;> omega
              · rcases hb with hb | ⟨f3, hb⟩
                · omega
                · have h3 := preLt_asymm h
                  rw [h3] at hb
                  exact Bool.false_ne_true hb

theorem svLT_trans {a b c : SemVer} (h1 : svLT a b = true)
    (h2 : svLT b c = true) : svLT a c = true := by
  rw [svLT_iff] at h1 h2 ⊢
  rcases h1 with h1 | ⟨e1, h1⟩
  · rcases h2 with h2 | ⟨f1, h2⟩
    · exact Or.inl (Nat.lt_trans h1 h2)
    · exact Or.inl (f1 ▸ h1)
  · rcases h2 with h2 | ⟨f1, h2⟩
    · exact Or.inl (e1 ▸ h2)
    · refine Or.inr ⟨e1.trans f1, ?_⟩
      rcases h1 with h1 | ⟨e2, h1⟩
      · rcases h2 with h2 | ⟨f2, h2⟩
        · exact Or.inl (Nat.lt_trans h1 h2)
        · exact Or.inl (f2 ▸ h1)
      · rcases h2 with h2 | ⟨f2, h2⟩
        · exact Or.inl (e2 ▸ h2)
        · refine Or.inr ⟨e2.trans f2, ?_⟩
          rcases h1 with h1 | ⟨e3, h1⟩
          · rcases h2 with h2 | ⟨f3, h2⟩
            · exact Or.inl (Nat.lt_trans h1 h2)
            · exact Or.inl (f3 ▸ h1)
          · rcases h2 with h2 | ⟨f3, h2⟩
            · exact Or.inl (e3 ▸ h2)
            · exact Or.inr ⟨e3.trans f3, preLt_trans h1 h2⟩

theorem svEq_not_lt {a b : SemVer} (h : svEq a b = true) :
    svLT a b = false := by
  rw [svEq_iff] at h
  obtain ⟨e1, e2, e3, e4⟩ := h
  cases hb : svLT a b with
  | false => rfl
  | true =>
      rw [svLT_iff] at hb
      rcases hb with hb | ⟨_, hb | ⟨_, hb | ⟨_, hb⟩⟩⟩
      · omega
      · omega
      · omega
      · rw [e4, preLt_irrefl] at hb
        exact hb.symm

theorem svEq_symm {a b : SemVer} (h : svEq a b = true) : svEq b a = true := by
  rw [svEq_iff] at h ⊢
  exact ⟨h.1.symm, h.2.1.symm, h.2.2.1.symm, h.2.2.2.symm⟩

theorem sv_trichotomy (a b : SemVer) :
    svLT a b = true ∨ svEq a b = true ∨ svLT b a = true := by
  rcases Nat.lt_trichotomy a.major b.major with h1 | h1 | h1
  · exact Or.inl ((svLT_iff a b).mpr (Or.inl h1))
  · rcases Nat.lt_trichotomy a.minor b.minor with h2 | h2 | h2
    · exact Or.inl ((svLT_iff a b).mpr (Or.inr ⟨h1, Or.inl h2⟩))
    · rcases Nat.lt_trichotomy a.patch b.patch with h3 | h3 | h3
      · exact Or.inl ((svLT_iff a b).mpr (Or.inr ⟨h1, Or.inr ⟨h2, Or.inl h3⟩⟩))
      · cases hp : preLt a.pre_release b.pre_release with
        | true =>
            exact Or.inl ((svLT_iff a b).mpr
              (Or.inr ⟨h1, Or.inr ⟨h2, Or.inr ⟨h3, hp⟩⟩⟩))
        | false =>
            cases hq : preLt b.pre_release a.pre_release with
            | true =>
                exact Or.inr (Or.inr ((svLT_iff b a).mpr
                  (Or.inr ⟨h1.symm, Or.inr ⟨h2.symm, Or.inr ⟨h3.symm, hq⟩⟩⟩)))
            | false =>
                exact Or.inr (Or.inl ((svEq_iff a b).mpr
                  ⟨h1, h2, h3, preLt_connex hp hq⟩))
      · exact Or.inr (Or.inr ((svLT_iff b a).mpr
          (Or.inr ⟨h1.symm, Or.inr ⟨h2.symm, Or.inl h3⟩⟩)))
    · exact Or.inr (Or.inr ((svLT_iff b a).mpr (Or.inr ⟨h1.symm, Or.inl h2⟩)))
  · exact Or.inr (Or.inr ((svLT_iff b a).mpr (Or.inl h1)))

end Versions

namespace Versions

/-- **C5.** Version comparison is a strict total order: for all parsed
versions `a`, `b`, `c`, exactly one of `a < b`, `a = b`, `a > b` holds,
`<` is transitive, and both the equality and the ordering are unchanged
by replacing the build components — they ignore `build` entirely. -/
theorem semantic_version_total_order (a b c : SemVer) (x y : Option String) :
    (svLT a b = true ∨ svEq a b = true ∨ svLT b a = true) ∧
    (svLT a b = true → svEq a b = false) ∧
    (svLT a b = true → svLT b a = false) ∧
    (svEq a b = true → svLT a b = false ∧ svLT b a = false) ∧
    (svLT { a with build := x } { b with build := y } = svLT a b) ∧
    (svEq { a with build := x } { b with build := y } = svEq a b) ∧
    (svLT a b = true → svLT b c = true → svLT a c = true) := by
  refine ⟨sv_trichotomy a b, ?_, ?_, ?_, rfl, rfl, ?_⟩
  · intro h
    cases he : svEq a b with
    | false => rfl
    | true =>
        have := svEq_not_lt he
        rw [this] at h
        exact absurd h (by simp)
  · exact svLT_asymm
  · intro he
    exact ⟨svEq_not_lt he, svEq_not_lt (svEq_symm he)⟩
  · exact svLT_trans

/-- Witness for C5: transitivity applied at `1.0.0 < 1.1.0 < 2.0.0`. -/
theorem semantic_version_total_order_witness :
    svLT ⟨1, 0, 0, none, none⟩ ⟨2, 0, 0, none, none⟩ = true :=
  (semantic_version_total_order ⟨1, 0, 0, none, none⟩ ⟨1, 1, 0, none, none⟩
      ⟨2, 0, 0, none, none⟩ none none).2.2.2.2.2.2 (by decide) (by decide)

/-- **C9.** A release is strictly greater than any of its pre-releases:
for every `(major, minor, patch)` triple and every pre-release suffix
`p`, the plain version compares `>` the pre-release version; and two
versions with equal triples that both carry pre-releases order by direct
comparison of the pre-release strings. -/
theorem pre_release_precedence (m mi pa : Nat) (p q : String)
    (x y : Option String) :
    svGT ⟨m, mi, pa, none, x⟩ ⟨m, mi, pa, some p, y⟩ = true ∧
    svLT ⟨m, mi, pa, some p, x⟩ ⟨m, mi, pa, some q, y⟩ = pyStrLt p q := by
  constructor
  · simp [svGT, svLE, svLT, svEq, preLt]
  · simp [svLT, preLt]

/-- **C3** (code bug).  `_ignore_semver_rules` documents "If ANY of the
semver rules are True, ignore the version", and the claim's scenarios
hold: current `1.1.1`, latest `1.2.1` is ignored under filter `{minor}`
and not under `{patch}`.  But the `if`/`elif` chain makes the `minor`
rule unreachable when `major` is also present (filter `{major, minor}`
on the same pair returns `false`), and the minor segments are compared
as strings, so latest `1.10.1` against current `1.9.1` under `{minor}`
returns `false` even though 10 > 9 numerically. -/
theorem ignore_version_semver_filter_evaluation :
    ignore_version ["1", "1", "1"] ["1", "2", "1"] [] (some [.minor]) = true ∧
    ignore_version ["1", "1", "1"] ["1", "2", "1"] [] (some [.patch]) = false ∧
    ignore_version ["1", "1", "1"] ["1", "2", "1"] []
      (some [.major, .minor]) = false ∧
    ignore_version ["1", "9", "1"] ["1", "10", "1"] [] (some [.minor]) = false ∧
    (9 : Nat) < 10 := by
  refine ⟨by decide, by decide, by decide, by decide, by decide⟩

/-- **C8** (code bug).  The minimum-version solver's search loop has no
iteration ceiling in the source: with a marker predicate that never
holds, the loop never returns — for every iteration bound `fuel`, the
fuel-indexed embedding of the loop is still running (`none`), for every
start version and granularity.  No `SearchExhaustedError` exists in the
code. -/
theorem find_minimum_py_version_never_terminates (fuel : Nat)
    (granularity : Part) (start : SemVer) :
    find_minimum_py_version (fun _ => false) granularity fuel start = none := by
  induction fuel generalizing start with
  | zero => rfl
  | succ n ih => simp [find_minimum_py_version, ih]

/-- **C10.** `previous_version` with part `major` on a version whose
major is `0` — and any borrow carrying past major `0`, such as
`previous_version` of `0.0.0` at `minor` or `patch` — returns no value:
the rendered decrement has major `-1`, which fails the constructor's
version-grammar check (`ValueError`). -/
theorem previous_version_borrow_past_zero (minor patch : Nat)
    (pre build : Option String) :
    previous_version ⟨0, minor, patch, pre, build⟩ .major 99 = none ∧
    previous_version ⟨0, 0, 0, none, none⟩ .minor 99 = none ∧
    previous_version ⟨0, 0, 0, none, none⟩ .patch 99 = none := by
  refine ⟨rfl, rfl, rfl⟩

end Versions

namespace Versions

/-! ## Structure of the constraint-set updater -/

theorem pinRepinFirst_append_no_pin {pre : List Spec} (ℓ : List Nat)
    (l : List Spec) (hpre : ∀ t ∈ pre, isPin t = false) :
    pinRepinFirst ℓ (pre ++ l) = (pinRepinFirst ℓ l).map (fun r => pre ++ r) := by
  induction pre with
  | nil =>
      show pinRepinFirst ℓ l = _
      cases pinRepinFirst ℓ l <;> rfl
  | cons t pre ih =>
      have ht : isPin t = false := hpre t (by simp)
      have ih2 := ih (fun u hu => hpre u (by simp [hu]))
      have step : pinRepinFirst ℓ (t :: (pre ++ l))
          = (pinRepinFirst ℓ (pre ++ l)).map (fun r => t :: r) := by
        simp [pinRepinFirst, ht]
      simp only [List.cons_append]
      rw [step, ih2]
      cases pinRepinFirst ℓ l <;> rfl

theorem pinRepinFirst_cons_pin {s : Spec} (ℓ : List Nat) (l : List Spec)
    (hs : isPin s = true) :
    pinRepinFirst ℓ (s :: l) = some (l ++ [⟨s.op, truncTo ℓ s.version⟩]) := by
  simp [pinRepinFirst, hs]

theorem pinRepinFirst_eq_none {ℓ : List Nat} {l : List Spec}
    (h : ∀ t ∈ l, isPin t = false) : pinRepinFirst ℓ l = none := by
  induction l with
  | nil => rfl
  | cons t l ih =>
      have ht : isPin t = false := h t (by simp)
      simp [pinRepinFirst, ht, ih (fun u hu => h u (by simp [hu]))]

theorem updateBounding_append_no_bounding {pre : List Spec} (ℓ : List Nat)
    (l : List Spec) (hpre : ∀ t ∈ pre, isBounding t = false) :
    updateBounding ℓ (pre ++ l) = (updateBounding ℓ l).map (fun r => pre ++ r) := by
  induction pre with
  | nil =>
      show updateBounding ℓ l = _
      cases updateBounding ℓ l <;> rfl
  | cons t pre ih =>
      have ht : isBounding t = false := hpre t (by simp)
      have ih2 := ih (fun u hu => hpre u (by simp [hu]))
      have step : updateBounding ℓ (t :: (pre ++ l))
          = (updateBounding ℓ (pre ++ l)).map (fun r => t :: r) := by
        simp [updateBounding, ht]
      simp only [List.cons_append]
      rw [step, ih2]
      cases updateBounding ℓ l <;> rfl

theorem updateBounding_cons_bounding {s : Spec} (ℓ : List Nat) (l : List Spec)
    (hs : isBounding s = true) :
    updateBounding ℓ (s :: l)
      = (boundingReplacement ℓ s).map (fun ns => l ++ ns) := by
  simp [updateBounding, hs]

theorem pinRepinFirst_eq_some {ℓ : List Nat} {l r : List Spec}
    (h : pinRepinFirst ℓ l = some r) :
    ∃ pre s post, l = pre ++ s :: post ∧ (∀ t ∈ pre, isPin t = false) ∧
      isPin s = true ∧
      r = pre ++ post ++ [⟨s.op, truncTo ℓ s.version⟩] := by
  induction l generalizing r with
  | nil => simp [pinRepinFirst] at h
  | cons s rest ih =>
      cases hs : isPin s with
      | true =>
          rw [pinRepinFirst_cons_pin ℓ rest hs] at h
          exact ⟨[], s, rest, rfl, by simp, hs, by simpa using h.symm⟩
      | false =>
          simp only [pinRepinFirst, hs, Bool.false_eq_true, if_false] at h
          obtain ⟨r', hr', hmap⟩ := Option.map_eq_some'.mp h
          obtain ⟨pre, s', post, hl, hpre, hs', hr⟩ := ih hr'
          refine ⟨s :: pre, s', post, by simp [hl], ?_, hs', ?_⟩
          · intro t ht
            rcases List.mem_cons.mp ht with ht | ht
            · exact ht ▸ hs
            · exact hpre t ht
          · simp [← hmap, hr]

theorem except_map_eq_ok {α : Type} {x : Except String α} {f : α → α} {r : α}
    (h : x.map f = .ok r) : ∃ a, x = .ok a ∧ r = f a := by
  cases x with
  | error e => simp [Except.map] at h
  | ok a => exact ⟨a, rfl, by simpa [Except.map] using h.symm⟩

theorem updateBounding_eq_ok {ℓ : List Nat} {l r : List Spec}
    (h : updateBounding ℓ l = .ok r) :
    ∃ pre s post ns, l = pre ++ s :: post ∧
      (∀ t ∈ pre, isBounding t = false) ∧ isBounding s = true ∧
      boundingReplacement ℓ s = .ok ns ∧ r = pre ++ post ++ ns := by
  induction l generalizing r with
  | nil => simp [updateBounding] at h
  | cons s rest ih =>
      cases hs : isBounding s with
      | true =>
          rw [updateBounding_cons_bounding ℓ rest hs] at h
          obtain ⟨ns, hns, hr⟩ := except_map_eq_ok h
          exact ⟨[], s, rest, ns, rfl, by simp, hs, hns, by simp [hr]⟩
      | false =>
          simp only [updateBounding, hs, Bool.false_eq_true, if_false] at h
          obtain ⟨r', hr', hmap⟩ := except_map_eq_ok h
          obtain ⟨pre, s', post, ns, hl, hpre, hs', hns, hr⟩ := ih hr'
          refine ⟨s :: pre, s', post, ns, by simp [hl], ?_, hs', hns, ?_⟩
          · intro t ht
            rcases List.mem_cons.mp ht with ht | ht
            · exact ht ▸ hs
            · exact hpre t ht
          · simp [hmap, hr]

end Versions

namespace Versions

/-- **C2** (counterexample).  For `{~=2.0}` and latest `3.1.0` the
updater returns `{>=2.0.0, <4}` — the exclusive bound is the next major
*above latest* (`versions.py` lines 802-805) — not the claimed
`{>=2.0.0, <3}`: no `<3` constraint occurs in the result. -/
theorem update_compat_major_bump_counterexample :
    update_specifier_set [3, 1, 0] [⟨Op.compat, [2, 0]⟩]
      = .ok [⟨Op.ge, [2, 0, 0]⟩, ⟨Op.lt, [4]⟩] ∧
    (⟨Op.lt, [3]⟩ : Spec) ∉ [⟨Op.ge, [2, 0, 0]⟩, ⟨Op.lt, [4]⟩] :=
  ⟨rfl, by decide⟩

/-- **C2** (amended).  For `{~=2.0}` and latest `3.1.0` the updater
returns `{>=2.0.0, <4}`: the `~=` constraint is expanded into `>=` on
the fully padded original pinned version and an exclusive `<` bound at
the next major above the latest version. -/
theorem update_compat_major_bump :
    update_specifier_set [3, 1, 0] [⟨Op.compat, [2, 0]⟩]
      = .ok [⟨Op.ge, [2, 0, 0]⟩, ⟨Op.lt, [4]⟩] := rfl

/-- **C1** (counterexample).  The updater holds no global priority of
`<=` over `<`: for the set `{<2, <=3}` (in this iteration order) and
latest `5.0.0`, the `<` constraint is the one rewritten (to `<6`) while
`<=3` passes through; the claim instead predicts the result
`{<2, <=5}`, whose constraints do not appear in the output. -/
theorem update_priority_counterexample :
    update_specifier_set [5, 0, 0] [⟨Op.lt, [2]⟩, ⟨Op.le, [3]⟩]
      = .ok [⟨Op.le, [3]⟩, ⟨Op.lt, [6]⟩] ∧
    (⟨Op.lt, [2]⟩ : Spec) ∉ [⟨Op.le, [3]⟩, ⟨Op.lt, [6]⟩] ∧
    (⟨Op.le, [5]⟩ : Spec) ∉ [⟨Op.le, [3]⟩, ⟨Op.lt, [6]⟩] :=
  ⟨rfl, by decide, by decide⟩

/-- **C1** (amended).  When the latest version does not satisfy the
current constraint set, the updater rewrites exactly the *first*
constraint in set-iteration order whose operator is `<=`, `<` or `~=`
(each constraint is tested against those three operators in that
order); every other constraint passes through unchanged, and the chosen
constraint is replaced by its `boundingReplacement`. -/
theorem update_rewrites_first_bounding (ℓ : List Nat) (pre post : List Spec)
    (s : Spec) (hpre : ∀ t ∈ pre, isBounding t = false)
    (hs : isBounding s = true)
    (hnc : setContains (pre ++ s :: post) ℓ = false) :
    update_specifier_set ℓ (pre ++ s :: post)
      = (boundingReplacement ℓ s).map (fun ns => pre ++ post ++ ns) := by
  unfold update_specifier_set
  rw [hnc]
  simp only [Bool.false_eq_true, if_false]
  rw [updateBounding_append_no_bounding ℓ (s :: post) hpre,
    updateBounding_cons_bounding ℓ post hs]
  cases boundingReplacement ℓ s <;> simp [Except.map]

/-- Witness for C1 (amended): in `{>=1, <2, <=3}` with latest `5.0.0`
the first bounding constraint is `<2`; it alone is rewritten. -/
theorem update_rewrites_first_bounding_witness :
    update_specifier_set [5, 0, 0] [⟨Op.ge, [1]⟩, ⟨Op.lt, [2]⟩, ⟨Op.le, [3]⟩]
      = .ok [⟨Op.ge, [1]⟩, ⟨Op.le, [3]⟩, ⟨Op.lt, [6]⟩] := by
  have h := update_rewrites_first_bounding [5, 0, 0] [⟨Op.ge, [1]⟩]
    [⟨Op.le, [3]⟩] ⟨Op.lt, [2]⟩ (by decide) (by decide) (by decide)
  exact h.trans rfl

/-- **C4.**  When the latest version already satisfies the set and the
set contains a `~=` or `==` constraint, the updater replaces the first
such constraint by the same operator applied to the latest version
truncated to the original specifier's segment count, leaving everything
else unchanged. -/
theorem update_repin_contained (ℓ : List Nat) (pre post : List Spec) (s : Spec)
    (hc : setContains (pre ++ s :: post) ℓ = true)
    (hpre : ∀ t ∈ pre, isPin t = false) (hs : isPin s = true) :
    update_specifier_set ℓ (pre ++ s :: post)
      = .ok (pre ++ post ++ [⟨s.op, truncTo ℓ s.version⟩]) := by
  unfold update_specifier_set
  rw [hc]
  simp only [if_true]
  rw [pinRepinFirst_append_no_pin ℓ (s :: post) hpre,
    pinRepinFirst_cons_pin ℓ post hs]
  simp

/-- Witness for C4: current `{~=2.0}` with latest `2.3.7` yields
`{~=2.3}` (truncated to two segments, not `~=2.3.7`). -/
theorem update_repin_contained_witness :
    update_specifier_set [2, 3, 7] [⟨Op.compat, [2, 0]⟩]
      = .ok [⟨Op.compat, [2, 3]⟩] := by
  have h := update_repin_contained [2, 3, 7] [] [] ⟨Op.compat, [2, 0]⟩
    (by decide) (by decide) (by decide)
  exact h.trans rfl

theorem isError_map (f : List Spec → List Spec) (x : Except String (List Spec)) :
    isError (x.map f) = isError x := by
  cases x <;> rfl

theorem boundingReplacement_ok {ℓ : List Nat} {s : Spec}
    (hs : isBounding s = true)
    (hlt : s.op = Op.lt → 1 ≤ s.version.length ∧ s.version.length ≤ 3) :
    isError (boundingReplacement ℓ s) = false := by
  obtain ⟨op, ver⟩ := s
  cases op with
  | le => rfl
  | lt =>
      obtain ⟨h1, h3⟩ := hlt rfl
      simp only [boundingReplacement]
      simp only [Spec.version] at h1 h3
      generalize ver.length = n at h1 h3 ⊢
      interval_cases n <;> rfl
  | compat =>
      simp only [boundingReplacement]
      split <;> rfl
  | eq => simp [isBounding] at hs
  | ne => simp [isBounding] at hs
  | gt => simp [isBounding] at hs
  | ge => simp [isBounding] at hs

theorem updateBounding_error_iff (ℓ : List Nat) (l : List Spec)
    (h : ∀ s ∈ l, s.op = Op.lt → 1 ≤ s.version.length ∧ s.version.length ≤ 3) :
    isError (updateBounding ℓ l) = true ↔ ∀ s ∈ l, isBounding s = false := by
  induction l with
  | nil => simp [updateBounding, isError]
  | cons s rest ih =>
      cases hs : isBounding s with
      | true =>
          rw [updateBounding_cons_bounding ℓ rest hs, isError_map,
            boundingReplacement_ok hs (h s (by simp))]
          simp only [Bool.false_eq_true, false_iff]
          intro hall
          rw [hall s (by simp)] at hs
          exact Bool.false_ne_true hs
      | false =>
          have step : updateBounding ℓ (s :: rest)
              = (updateBounding ℓ rest).map (fun r => s :: r) := by
            simp [updateBounding, hs]
          rw [step, isError_map, ih (fun u hu => h u (by simp [hu]))]
          constructor
          · intro hall t ht
            rcases List.mem_cons.mp ht with ht | ht
            · exact ht ▸ hs
            · exact hall t ht
          · intro hall t ht
            exact hall t (by simp [ht])

/-- **C7.**  For constraint sets whose `<` constraints carry one to
three version segments (the SemVer-shaped versions the engine is
specified for), the updater fails — with `UnableToResolve` — exactly
when the latest version does not satisfy the set and no constraint uses
`<=`, `<` or `~=`; no rewritten set is produced in that case. -/
theorem update_unresolvable_iff (ℓ : List Nat) (cur : List Spec)
    (h : ∀ s ∈ cur, s.op = Op.lt → 1 ≤ s.version.length ∧ s.version.length ≤ 3) :
    isError (update_specifier_set ℓ cur) = true ↔
      setContains cur ℓ = false ∧ ∀ s ∈ cur, isBounding s = false := by
  unfold update_specifier_set
  cases hc : setContains cur ℓ with
  | true =>
      simp only [if_true]
      cases pinRepinFirst ℓ cur <;> simp [isError]
  | false =>
      simp only [Bool.false_eq_true, if_false]
      rw [updateBounding_error_iff ℓ cur h]
      simp

/-- Witness for C7: the set `{>=3}` with latest `2.0.0` (no
upper-bound-capable operator, latest not contained) makes the updater
fail. -/
theorem update_unresolvable_iff_witness :
    isError (update_specifier_set [2, 0, 0] [⟨Op.ge, [3]⟩]) = true :=
  (update_unresolvable_iff [2, 0, 0] [⟨Op.ge, [3]⟩] (by decide)).mpr
    ⟨by decide, by decide⟩

end Versions

namespace Versions

/-! ## Support lemmas for idempotence of the updater -/

theorem getD_zero_of_le {l : List Nat} {i : Nat} (h : l.length ≤ i) :
    l.getD i 0 = 0 := by
  induction l generalizing i with
  | nil => cases i <;> rfl
  | cons x xs ih =>
      cases i with
      | zero => simp at h
      | succ i => simpa using ih (by simpa using h)

theorem take_getD_of_lt (l : List Nat) (n i : Nat) (h : i < n) :
    (l.take n).getD i 0 = l.getD i 0 := by
  induction l generalizing n i with
  | nil => simp
  | cons x xs ih =>
      cases n with
      | zero => omega
      | succ n =>
          cases i with
          | zero => rfl
          | succ i => simpa using ih n i (by omega)

theorem take_getD_of_ge (l : List Nat) (n i : Nat) (h : n ≤ i) :
    (l.take n).getD i 0 = 0 :=
  getD_zero_of_le (le_trans (by rw [List.length_take]; omega) h)

theorem padTriple_take_of_eq {ℓ v : List Nat}
    (he : padTriple ℓ = padTriple v) :
    padTriple (ℓ.take v.length) = padTriple ℓ := by
  simp only [padTriple, Prod.mk.injEq] at he ⊢
  obtain ⟨e0, e1, e2⟩ := he
  refine ⟨?_, ?_, ?_⟩
  · by_cases h : 0 < v.length
    · exact take_getD_of_lt ℓ v.length 0 h
    · rw [take_getD_of_ge ℓ v.length 0 (by omega), e0,
        getD_zero_of_le (by omega)]
  · by_cases h : 1 < v.length
    · exact take_getD_of_lt ℓ v.length 1 h
    · rw [take_getD_of_ge ℓ v.length 1 (by omega), e1,
        getD_zero_of_le (by omega)]
  · by_cases h : 2 < v.length
    · exact take_getD_of_lt ℓ v.length 2 h
    · rw [take_getD_of_ge ℓ v.length 2 (by omega), e2,
        getD_zero_of_le (by omega)]

theorem truncTo_take (ℓ : List Nat) (k : Nat) :
    truncTo ℓ (ℓ.take k) = ℓ.take k := by
  unfold truncTo
  rw [List.length_take]
  rcases Nat.le_total k ℓ.length with h | h
  · rw [Nat.min_eq_left h]
  · rw [Nat.min_eq_right h, List.take_length, List.take_of_length_le h]

theorem specContains_eq_take {ℓ v : List Nat}
    (he : specContains ⟨Op.eq, v⟩ ℓ = true) :
    specContains ⟨Op.eq, truncTo ℓ v⟩ ℓ = true := by
  simp only [specContains, beq_iff_eq] at he ⊢
  rw [truncTo, padTriple_take_of_eq he]

theorem specContains_compat_take (ℓ : List Nat) (k : Nat) (h2 : 2 ≤ k)
    (hl2 : 2 ≤ ℓ.length) (hl3 : ℓ.length ≤ 3) :
    specContains ⟨Op.compat, ℓ.take k⟩ ℓ = true := by
  match ℓ, hl2, hl3 with
  | [x, y], _, _ =>
      have ht : [x, y].take k = [x, y] :=
        List.take_of_length_le (by simpa using h2)
      rw [ht]
      simp [specContains, padTriple, compatUpper, tripleLtB]
  | [x, y, z], _, _ =>
      match k, h2 with
      | 2, _ =>
          show specContains ⟨Op.compat, [x, y]⟩ [x, y, z] = true
          simp [specContains, padTriple, compatUpper, tripleLtB]
          omega
      | k + 3, _ =>
          have ht : [x, y, z].take (k + 3) = [x, y, z] :=
            List.take_of_length_le (by simp)
          rw [ht]
          simp [specContains, padTriple, compatUpper, tripleLtB]

theorem setContains_mem {cur : List Spec} {ℓ : List Nat} {s : Spec}
    (hc : setContains cur ℓ = true) (hs : s ∈ cur) :
    specContains s ℓ = true := by
  rw [setContains, List.all_eq_true] at hc
  exact hc s hs

theorem others_not_four {pre post : List Spec} {s : Spec}
    (hone : ((pre ++ s :: post).countP
      (fun t => isBounding t || isPin t)) ≤ 1)
    (hs : (isBounding s || isPin s) = true) :
    ∀ t ∈ pre ++ post, isBounding t = false ∧ isPin t = false := by
  rw [List.countP_append, List.countP_cons, hs] at hone
  simp only [if_true] at hone
  have hpre : pre.countP (fun t => isBounding t || isPin t) = 0 := by omega
  have hpost : post.countP (fun t => isBounding t || isPin t) = 0 := by omega
  intro t ht
  have hfour : (isBounding t || isPin t) = false := by
    rcases List.mem_append.mp ht with ht | ht
    · have := List.countP_eq_zero.mp hpre t ht
      simpa using this
    · have := List.countP_eq_zero.mp hpost t ht
      simpa using this
  exact ⟨by revert hfour; cases isBounding t <;> simp,
    by revert hfour; cases isPin t <;> simp⟩

end Versions

namespace Versions

theorem take_length_take (ℓ : List Nat) (k : Nat) :
    ℓ.take (ℓ.take k).length = ℓ.take k := by
  rw [List.length_take]
  rcases Nat.le_total k ℓ.length with h | h
  · rw [Nat.min_eq_left h]
  · rw [Nat.min_eq_right h, List.take_length, List.take_of_length_le h]

theorem setContains_of_append_cons {pre post : List Spec} {s : Spec}
    {ℓ : List Nat} (hc : setContains (pre ++ s :: post) ℓ = true) :
    setContains (pre ++ post) ℓ = true := by
  rw [setContains, List.all_append, List.all_cons] at hc
  rw [setContains, List.all_append]
  simp only [Bool.and_eq_true] at hc ⊢
  exact ⟨hc.1, hc.2.2⟩

/-- Second application of the updater in the re-pin case: after the
first `~=`/`==` specifier has been re-pinned to the truncated latest
version, the set still contains the latest version and re-pinning again
reproduces the same set. -/
theorem update_idem_pin_tail (ℓ : List Nat) (others : List Spec) (op : Op)
    (ver : List Nat) (hl2 : 2 ≤ ℓ.length) (hl3 : ℓ.length ≤ 3)
    (hcompat2 : op = Op.compat → 2 ≤ ver.length)
    (hothers : ∀ t ∈ others, isBounding t = false ∧ isPin t = false)
    (hcother : setContains others ℓ = true)
    (hcv : specContains ⟨op, ver⟩ ℓ = true)
    (hpin : isPin (⟨op, ver⟩ : Spec) = true) :
    update_specifier_set ℓ (others ++ [⟨op, truncTo ℓ ver⟩])
      = .ok (others ++ [⟨op, truncTo ℓ ver⟩]) := by
  have hop : op = Op.compat ∨ op = Op.eq := by
    revert hpin
    unfold isPin
    cases op <;> simp
  have hnew : specContains ⟨op, truncTo ℓ ver⟩ ℓ = true := by
    rcases hop with hop | hop
    · subst hop
      exact specContains_compat_take ℓ _ (hcompat2 rfl) hl2 hl3
    · subst hop
      exact specContains_eq_take hcv
  have hcr : setContains (others ++ [⟨op, truncTo ℓ ver⟩]) ℓ = true := by
    rw [setContains, List.all_append]
    rw [setContains] at hcother
    simp [hcother, hnew]
  unfold update_specifier_set
  rw [hcr]
  simp only [if_true]
  have hpin' : isPin (⟨op, truncTo ℓ ver⟩ : Spec) = true := hpin
  rw [pinRepinFirst_append_no_pin ℓ _ (fun t ht => (hothers t ht).2),
    pinRepinFirst_cons_pin ℓ [] hpin']
  simp [truncTo, take_length_take]

/-- Second application of the updater over a set whose non-rewritten
part carries no pin and no bounding operator, when the rewritten tail is
a fixed point of both scans. -/
theorem update_second_app (ℓ : List Nat) (others tail : List Spec)
    (hothers : ∀ t ∈ others, isBounding t = false ∧ isPin t = false)
    (hpin_tail : pinRepinFirst ℓ tail = none ∨
      pinRepinFirst ℓ tail = some tail)
    (hbound_tail : updateBounding ℓ tail = .ok tail) :
    update_specifier_set ℓ (others ++ tail) = .ok (others ++ tail) := by
  unfold update_specifier_set
  cases hc2 : setContains (others ++ tail) ℓ with
  | true =>
      simp only [if_true]
      rw [pinRepinFirst_append_no_pin ℓ tail (fun t ht => (hothers t ht).2)]
      rcases hpin_tail with h | h <;> rw [h] <;> simp
  | false =>
      simp only [Bool.false_eq_true, if_false]
      rw [updateBounding_append_no_bounding ℓ tail
        (fun t ht => (hothers t ht).1), hbound_tail]
      rfl

end Versions

namespace Versions

/-- **C6** (amended).  For a latest version with two or three segments
and a constraint set that contains at most one constraint whose operator
is drawn from `{<=, <, ~=, ==}` (with any `~=` version carrying at least
two segments, as `packaging` requires), a successful application of the
updater is idempotent: applying it again with the same latest version
returns the first result unchanged. -/
theorem update_specifier_set_idempotent (ℓ : List Nat) (cur r : List Spec)
    (hl2 : 2 ≤ ℓ.length) (hl3 : ℓ.length ≤ 3)
    (hcompat : ∀ s ∈ cur, s.op = Op.compat → 2 ≤ s.version.length)
    (hone : (cur.countP (fun t => isBounding t || isPin t)) ≤ 1)
    (hok : update_specifier_set ℓ cur = .ok r) :
    update_specifier_set ℓ r = .ok r := by
  unfold update_specifier_set at hok
  cases hc : setContains cur ℓ with
  | true =>
      rw [hc] at hok
      simp only [if_true] at hok
      cases hpin : pinRepinFirst ℓ cur with
      | none =>
          rw [hpin] at hok
          injection hok with h
          subst h
          unfold update_specifier_set
          rw [hc]
          simp only [if_true]
          rw [hpin]
      | some r0 =>
          rw [hpin] at hok
          injection hok with h
          subst h
          obtain ⟨pre, s, post, hcur, hpre, hs, hr0⟩ :=
            pinRepinFirst_eq_some hpin
          obtain ⟨op, ver⟩ := s
          subst hcur
          subst hr0
          have hothers := others_not_four hone (by simp [hs])
          exact update_idem_pin_tail ℓ (pre ++ post) op ver hl2 hl3
            (fun hop => hcompat ⟨op, ver⟩ (by simp) hop) hothers
            (setContains_of_append_cons hc) (setContains_mem hc (by simp)) hs
  | false =>
      rw [hc] at hok
      simp only [Bool.false_eq_true, if_false] at hok
      obtain ⟨pre, s, post, ns, hcur, hpre, hs, hns, hr⟩ :=
        updateBounding_eq_ok hok
      obtain ⟨op, ver⟩ := s
      subst hcur
      have hothers := others_not_four hone (by simp [hs])
      cases op with
      | le =>
          have hns' : [(⟨Op.le, truncTo ℓ ver⟩ : Spec)] = ns := by
            have h := hns
            simp only [boundingReplacement, Except.ok.injEq] at h
            exact h
          subst hns'
          subst hr
          apply update_second_app ℓ (pre ++ post) _ hothers
          · exact Or.inl rfl
          · have hb : isBounding (⟨Op.le, truncTo ℓ ver⟩ : Spec) = true := rfl
            rw [updateBounding_cons_bounding ℓ [] hb]
            simp only [boundingReplacement]
            simp [Except.map, truncTo, take_length_take]
      | lt =>
          simp only [boundingReplacement] at hns
          generalize hl : ver.length = m at hns
          rcases m with _ | _ | _ | _ | m
          · simp at hns
          · simp only [Except.ok.injEq] at hns
            subst hns
            subst hr
            apply update_second_app ℓ (pre ++ post) _ hothers
            · exact Or.inl rfl
            · rfl
          · simp only [Except.ok.injEq] at hns
            subst hns
            subst hr
            apply update_second_app ℓ (pre ++ post) _ hothers
            · exact Or.inl rfl
            · rfl
          · simp only [Except.ok.injEq] at hns
            subst hns
            subst hr
            apply update_second_app ℓ (pre ++ post) _ hothers
            · exact Or.inl rfl
            · rfl
          · simp at hns
      | compat =>
          simp only [boundingReplacement] at hns
          by_cases hcmp : (padTriple ver).1 < (padTriple ℓ).1
          · rw [if_pos hcmp] at hns
            simp only [Except.ok.injEq] at hns
            subst hns
            subst hr
            apply update_second_app ℓ (pre ++ post) _ hothers
            · exact Or.inl rfl
            · rfl
          · rw [if_neg hcmp] at hns
            simp only [Except.ok.injEq] at hns
            subst hns
            subst hr
            have h2v : 2 ≤ ver.length :=
              hcompat ⟨Op.compat, ver⟩ (by simp) rfl
            have hhead : (padTriple (truncTo ℓ ver)).1 = (padTriple ℓ).1 := by
              simp only [truncTo, padTriple]
              exact take_getD_of_lt ℓ ver.length 0 (by omega)
            apply update_second_app ℓ (pre ++ post) _ hothers
            · refine Or.inr ?_
              have hp : isPin (⟨Op.compat, truncTo ℓ ver⟩ : Spec) = true := rfl
              rw [pinRepinFirst_cons_pin ℓ [] hp]
              simp [truncTo, take_length_take]
            · have hb : isBounding (⟨Op.compat, truncTo ℓ ver⟩ : Spec) = true :=
                rfl
              rw [updateBounding_cons_bounding ℓ [] hb]
              simp only [boundingReplacement]
              rw [if_neg (by rw [hhead]; exact lt_irrefl _)]
              simp [Except.map, truncTo, take_length_take]
      | eq => simp [isBounding] at hs
      | ne => simp [isBounding] at hs
      | gt => simp [isBounding] at hs
      | ge => simp [isBounding] at hs

/-- Witness for C6 (amended): `{>=1, ~=2.0}` with latest `2.3.7` —
first application re-pins to `{>=1, ~=2.3}`, and a second application
returns that set unchanged. -/
theorem update_specifier_set_idempotent_witness :
    update_specifier_set [2, 3, 7] [⟨Op.ge, [1]⟩, ⟨Op.compat, [2, 3]⟩]
      = .ok [⟨Op.ge, [1]⟩, ⟨Op.compat, [2, 3]⟩] :=
  update_specifier_set_idempotent [2, 3, 7]
    [⟨Op.ge, [1]⟩, ⟨Op.compat, [2, 0]⟩] [⟨Op.ge, [1]⟩, ⟨Op.compat, [2, 3]⟩]
    (by decide) (by decide) (by decide) (by decide) rfl

/-- **C6** (counterexample).  Idempotence fails for sets with two upper
bounds: for `{<=3, <=5}` and latest `6.0.0` the first application gives
`{<=5, <=6}` (rewriting `<=3`), but applying the updater to that result
rewrites `<=5` and yields `{<=6}` — the constraint `<=5` survives one
application and not two, so Update ∘ Update ≠ Update. -/
theorem update_specifier_set_idempotent_counterexample :
    update_specifier_set [6, 0, 0] [⟨Op.le, [3]⟩, ⟨Op.le, [5]⟩]
      = .ok [⟨Op.le, [5]⟩, ⟨Op.le, [6]⟩] ∧
    update_specifier_set [6, 0, 0] [⟨Op.le, [5]⟩, ⟨Op.le, [6]⟩]
      = .ok [⟨Op.le, [6]⟩, ⟨Op.le, [6]⟩] ∧
    (⟨Op.le, [5]⟩ : Spec) ∈ [(⟨Op.le, [5]⟩ : Spec), ⟨Op.le, [6]⟩] ∧
    (⟨Op.le, [5]⟩ : Spec) ∉ [(⟨Op.le, [6]⟩ : Spec), ⟨Op.le, [6]⟩] :=
  ⟨rfl, rfl, by decide, by decide⟩

end Versions
